import Mathlib

/-!
# qutebrowser browsing-history store: verification development

The history-handling module of this repository (the `WebHistory` store: its
history log, completion index, rebuild coordinator and legacy text importer)
is specified in `spec.md` and exercised by `src/tests/unit/browser/test_history.py`,
but the module's own source file is not part of the source tree available here.
The definitions below therefore carry doc comments starting `Modelled from the
spec:` — they are a shallow embedding built from the specification's words,
constrained by the unit tests of the repository wherever those pin down
behaviour.

URLs are modelled in a simplified but faithful way: the only percent-escaping
modelled is that of the space character (`' '` ↔ `"%20"`), which is the one the
specification and the tests exercise, and a URL is parsed into scheme /
userinfo / host-plus-path components exactly deep enough to express credential
stripping (privacy normalization), host-based exclusion patterns and the
encoded/decoded renderings used by the two tables.
-/

/-- Modelled from the spec: percent-encoding as performed when a URL is turned
into its fully-encoded storage form.  Only the space character is subject to
escaping in this model; every other character renders as itself. -/
def encodeChars : List Char → List Char
  | [] => []
  | c :: cs => if c = ' ' then '%' :: '2' :: '0' :: encodeChars cs else c :: encodeChars cs

/-- Modelled from the spec: percent-decoding of the `"%20"` escape, as performed
when a stored URL is rendered in its human-readable (pretty decoded) form. -/
def decodeChars : List Char → List Char
  | [] => []
  | [c] => [c]
  | [c, d] => [c, d]
  | c :: d :: e :: cs =>
    if c = '%' ∧ d = '2' ∧ e = '0' then ' ' :: decodeChars cs
    else c :: decodeChars (d :: e :: cs)

/-- String wrapper around `encodeChars`. -/
def encodeSpaces (s : String) : String := ⟨encodeChars s.data⟩

/-- String wrapper around `decodeChars`. -/
def decodeP20 (s : String) : String := ⟨decodeChars s.data⟩

theorem encodeChars_ne_space : ∀ l c, c ∈ encodeChars l → c ≠ ' ' := by
  intro l
  induction l with
  | nil => intro c h; simp [encodeChars] at h
  | cons a t ih =>
    intro c h
    by_cases ha : a = ' '
    · simp [encodeChars, ha] at h
      rcases h with h | h | h | h
      · subst h; decide
      · subst h; decide
      · subst h; decide
      · exact ih c h
    · simp [encodeChars, ha] at h
      rcases h with h | h
      · subst h; exact ha
      · exact ih c h

theorem encodeChars_of_no_space : ∀ l, (∀ c ∈ l, c ≠ ' ') → encodeChars l = l := by
  intro l
  induction l with
  | nil => intro _; rfl
  | cons a t ih =>
    intro h
    have ha : a ≠ ' ' := h a (by simp)
    simp [encodeChars, ha]
    exact ih (fun c hc => h c (by simp [hc]))

theorem encodeChars_idem (l : List Char) : encodeChars (encodeChars l) = encodeChars l :=
  encodeChars_of_no_space _ (encodeChars_ne_space l)

theorem encodeSpaces_idem (s : String) : encodeSpaces (encodeSpaces s) = encodeSpaces s := by
  unfold encodeSpaces
  exact congrArg String.mk (encodeChars_idem s.data)

theorem decodeChars_cons_ne (c : Char) (l : List Char) (hc : c ≠ '%') :
    decodeChars (c :: l) = c :: decodeChars l := by
  match l with
  | [] => rfl
  | [d] => rfl
  | d :: e :: t => simp [decodeChars, hc]

theorem decodeChars_pat (l : List Char) :
    decodeChars ('%' :: '2' :: '0' :: l) = ' ' :: decodeChars l := by
  simp [decodeChars]

theorem decodeChars_cons3_ne (c d e : Char) (l : List Char)
    (h : ¬(c = '%' ∧ d = '2' ∧ e = '0')) :
    decodeChars (c :: d :: e :: l) = c :: decodeChars (d :: e :: l) := by
  simp only [decodeChars, if_neg h]

theorem encodeChars_cons_space (l : List Char) :
    encodeChars (' ' :: l) = '%' :: '2' :: '0' :: encodeChars l := by
  simp [encodeChars]

theorem encodeChars_cons_ne (c : Char) (l : List Char) (h : c ≠ ' ') :
    encodeChars (c :: l) = c :: encodeChars l := by
  simp [encodeChars, h]

/-- Key round-trip fact: on a string that is already fully decoded (decoding
it changes nothing), encoding and then decoding is the identity. -/
theorem decode_encode_of_decoded :
    ∀ n l, List.length l ≤ n → decodeChars l = l → decodeChars (encodeChars l) = l := by
  intro n
  induction n with
  | zero =>
    intro l hl _
    cases l with
    | nil => rfl
    | cons a t => simp at hl
  | succ n ih =>
    intro l hl hdec
    match l with
    | [] => rfl
    | a :: t =>
      have hlen : t.length ≤ n := Nat.le_of_succ_le_succ (by simpa using hl)
      by_cases ha : a = ' '
      · subst ha
        have ht : decodeChars t = t := by
          rw [decodeChars_cons_ne ' ' t (by decide)] at hdec
          injection hdec
        rw [encodeChars_cons_space, decodeChars_pat, ih t hlen ht]
      · by_cases hp : a = '%'
        · subst hp
          match t with
          | [] => rfl
          | [d] =>
            by_cases hd : d = ' '
            · subst hd; rfl
            · rw [encodeChars_cons_ne '%' _ (by decide), encodeChars_cons_ne d _ hd]
              rfl
          | d :: e :: t₂ =>
            have hnotpat : ¬(d = '2' ∧ e = '0') := by
              rintro ⟨rfl, rfl⟩
              rw [decodeChars_pat] at hdec
              have h20 : ' ' = '%' := by injection hdec
              exact absurd h20 (by decide)
            have hfull : ¬('%' = '%' ∧ d = '2' ∧ e = '0') := fun h => hnotpat h.2
            have hdect : decodeChars (d :: e :: t₂) = d :: e :: t₂ := by
              rw [decodeChars_cons3_ne '%' d e t₂ hfull] at hdec
              injection hdec
            have hIH : decodeChars (encodeChars (d :: e :: t₂)) = d :: e :: t₂ :=
              ih _ hlen hdect
            by_cases hd : d = ' '
            · subst hd
              rw [encodeChars_cons_ne '%' _ (by decide), encodeChars_cons_space]
              rw [encodeChars_cons_space] at hIH
              rw [decodeChars_cons3_ne '%' '%' '2' _ (by decide), hIH]
            · rw [encodeChars_cons_ne '%' _ (by decide), encodeChars_cons_ne d _ hd]
              match henc3 : encodeChars (e :: t₂) with
              | [] =>
                exfalso
                by_cases he : e = ' '
                · subst he; rw [encodeChars_cons_space] at henc3; exact absurd henc3 (by simp)
                · rw [encodeChars_cons_ne e _ he] at henc3; exact absurd henc3 (by simp)
              | f :: ft =>
                have hf : ¬('%' = '%' ∧ d = '2' ∧ f = '0') := by
                  rintro ⟨-, rfl, rfl⟩
                  by_cases he : e = ' '
                  · subst he
                    rw [encodeChars_cons_space] at henc3
                    have hpf : '%' = '0' := by injection henc3
                    exact absurd hpf (by decide)
                  · rw [encodeChars_cons_ne e _ he] at henc3
                    have hef : e = '0' := by injection henc3
                    exact hnotpat ⟨rfl, hef⟩
                rw [decodeChars_cons3_ne '%' d f ft hf]
                have hrest : decodeChars (d :: f :: ft) = d :: e :: t₂ := by
                  rw [← henc3, ← encodeChars_cons_ne d _ hd]
                  exact hIH
                rw [hrest]
        · have ht : decodeChars t = t := by
            rw [decodeChars_cons_ne a t hp] at hdec
            injection hdec
          rw [encodeChars_cons_ne a _ ha, decodeChars_cons_ne a _ hp, ih t hlen ht]

/-- Modelled from the spec: a URL as handed to the store by the browser engine,
already parsed into components.  `scheme` is the (possibly empty) scheme,
`user`/`password` the credentials of the userinfo part, `hier` whether the URL
is hierarchical (`scheme://...`) rather than opaque (`scheme:...`), and
`hostPath` everything after the userinfo, in decoded form. -/
structure Url where
  scheme : String
  user : String
  password : Option String
  hier : Bool
  hostPath : String
deriving DecidableEq, Repr

/-- Modelled from the spec: privacy normalization strips the credentials
("stripping credentials and any non-shareable components"). -/
def stripPw (u : Url) : Url := { u with password := none }

/-- Modelled from the spec: render a URL as its human-readable (decoded)
string form. -/
def renderUrl (u : Url) : String :=
  if u.scheme = "" then u.hostPath
  else if u.hier then
    u.scheme ++ "://" ++
      (if u.user = "" ∧ u.password = none then ""
       else u.user ++ (match u.password with | some p => ":" ++ p | none => "") ++ "@") ++
      u.hostPath
  else u.scheme ++ ":" ++ u.hostPath

/-- Split a leading `scheme:` off a character list: succeeds when a non-empty
all-letter prefix is followed by a colon. -/
def splitSchemeChars (l : List Char) : Option (List Char × List Char) :=
  match l.dropWhile Char.isAlpha with
  | ':' :: r =>
    if l.takeWhile Char.isAlpha = [] then none else some (l.takeWhile Char.isAlpha, r)
  | _ => none

/-- Modelled from the spec: parse an already-decoded URL string into its
components (scheme, userinfo credentials, host+path). -/
def parseDecoded (s : String) : Url :=
  match splitSchemeChars s.data with
  | none => ⟨"", "", none, true, s⟩
  | some (sc, rest) =>
    match rest with
    | '/' :: '/' :: r =>
      let auth := r.takeWhile (· != '/')
      let path := r.drop auth.length
      if auth.contains '@' then
        let ui := auth.takeWhile (· != '@')
        let hp := auth.drop (ui.length + 1) ++ path
        let user := ui.takeWhile (· != ':')
        let pw := if ui.contains ':' then some (String.mk (ui.drop (user.length + 1))) else none
        ⟨String.mk sc, String.mk user, pw, true, String.mk hp⟩
      else ⟨String.mk sc, "", none, true, String.mk r⟩
    | _ => ⟨String.mk sc, "", none, false, String.mk rest⟩

/-- Modelled from the spec: parse a stored URL string (which may carry `%20`
escapes) into components, decoding first, as the backing engine's URL type
does. -/
def parseUrl (s : String) : Url := parseDecoded (decodeP20 s)

/-- Modelled from the spec: the completion-table form of a URL — decoded
rendering with credentials stripped. -/
def fmtCompletion (u : Url) : String := renderUrl (stripPw u)

/-- Modelled from the spec: the history-table form of a URL — fully encoded
rendering with credentials stripped. -/
def fmtHistory (u : Url) : String := encodeSpaces (renderUrl (stripPw u))

/-- Well-formedness of a `Url` value: it models a URL produced by the browser
engine's parser, so its credential-stripped rendering parses back to exactly
the same components and contains no residual `%20` escape. -/
def UrlWF (u : Url) : Prop :=
  parseDecoded (renderUrl (stripPw u)) = stripPw u ∧
  decodeP20 (renderUrl (stripPw u)) = renderUrl (stripPw u)

instance : DecidablePred UrlWF := fun u => by
  unfold UrlWF
  infer_instance

theorem stripPw_idem (u : Url) : stripPw (stripPw u) = stripPw u := rfl

/-- Modelled from the spec: normalization of a URL for the Completion Index.
Returns `none` when normalization fails (empty or `data:` URLs), otherwise
the credential-stripped decoded rendering. -/
def normalizeUrl (u : Url) : Option String :=
  if renderUrl (stripPw u) = "" ∨ u.scheme = "data" then none else some (fmtCompletion u)

/-- The normalized URL of a stored History Log row. -/
def normalizeStored (s : String) : Option String := normalizeUrl (parseUrl s)

/-- The fully-encoded storage form of a URL parses back (after decoding) to the
same credential-stripped components, for any well-formed URL. -/
theorem parseUrl_fmtHistory (u : Url) (h : UrlWF u) : parseUrl (fmtHistory u) = stripPw u := by
  obtain ⟨h1, h2⟩ := h
  unfold parseUrl fmtHistory
  have hdata : decodeChars (renderUrl (stripPw u)).data = (renderUrl (stripPw u)).data := by
    simpa [decodeP20] using congrArg String.data h2
  have hde : decodeP20 (encodeSpaces (renderUrl (stripPw u))) = renderUrl (stripPw u) := by
    unfold decodeP20 encodeSpaces
    exact congrArg String.mk (decode_encode_of_decoded _ _ (le_refl _) hdata)
  rw [hde, h1]

theorem normalizeStored_fmtHistory (u : Url) (h : UrlWF u) :
    normalizeStored (fmtHistory u) = normalizeUrl u := by
  unfold normalizeStored
  rw [parseUrl_fmtHistory u h]
  rfl

/-- The host of a URL: the part of `hostPath` before the first slash, for
hierarchical URLs with a scheme (relative URLs have no host). -/
def hostOf (u : Url) : String :=
  if u.scheme ≠ "" ∧ u.hier then String.mk (u.hostPath.data.takeWhile (· != '/')) else ""

/-- Glob matching with `*` wildcards, over characters. -/
def globChars : List Char → List Char → Bool
  | [], [] => true
  | [], _ :: _ => false
  | '*' :: ps, s =>
    globChars ps s || (match s with | [] => false | _ :: t => globChars ('*' :: ps) t)
  | _ :: _, [] => false
  | p :: ps, c :: t => (p == c) && globChars ps t
termination_by p s => (List.length p, List.length s)

/-- Modelled from the spec: an exclusion pattern matches a host either as a
plain glob, or — for patterns of the form `*.domain` — when the host is the
bare `domain` itself (subdomain wildcards also cover the domain). -/
def patMatches (p host : String) : Bool :=
  globChars p.data host.data || ((p.data.take 2 == ['*', '.']) && host == String.mk (p.data.drop 2))

/-- Modelled from the spec: a URL is excluded from the Completion Index when
any configured exclusion pattern matches its host. -/
def isExcluded (patterns : List String) (u : Url) : Bool :=
  patterns.any (fun p => patMatches p (hostOf u))

/-- Modelled from the spec: a History Log row — one row per distinct URL,
storing the most recent title, access time and redirect flag. -/
structure HistoryEntry where
  url : String
  title : String
  atime : Int
  redirect : Bool
deriving DecidableEq, Repr

/-- Modelled from the spec: a Completion Index row, keyed by normalized URL. -/
structure CompletionEntry where
  url : String
  title : String
  atime : Int
deriving DecidableEq, Repr

/-- Modelled from the spec: the MetaInfo store with its two recognized keys. -/
structure MetaInfo where
  force_rebuild : Bool
  version : Int
deriving DecidableEq, Repr

/-- Modelled from the spec: the whole history store — History Log, Completion
Index and MetaInfo inside one backend. -/
structure WebHistory where
  log : List HistoryEntry
  completion : List CompletionEntry
  metainfo : MetaInfo
deriving DecidableEq, Repr

/-- Modelled from the spec: upsert into the History Log keyed by URL —
"inserting an existing URL overwrites title/access_time/redirect
(last-write-wins), never creates a duplicate". -/
def logInsert (e : HistoryEntry) : List HistoryEntry → List HistoryEntry
  | [] => [e]
  | h :: t => if h.url = e.url then e :: t else h :: logInsert e t

/-- Modelled from the spec: insert-or-replace into the Completion Index keyed
by normalized URL. -/
def completionInsert (e : CompletionEntry) : List CompletionEntry → List CompletionEntry
  | [] => [e]
  | c :: t => if c.url = e.url then e :: t else c :: completionInsert e t

/-- Modelled from the spec: `add_url` — validates the URL is non-empty, upserts
the History Log row in storage form, then forwards a recomputed
CompletionEntry (or removal) to the Completion Index: the completion row
exists only for non-redirect, normalizable, non-excluded URLs. -/
def addUrl (patterns : List String) (u : Url) (title : String) (atime : Int)
    (redirect : Bool) (st : WebHistory) : WebHistory :=
  if renderUrl u = "" then st
  else
    let st' := { st with log := logInsert ⟨fmtHistory u, title, atime, redirect⟩ st.log }
    match normalizeUrl u with
    | none => st'
    | some curl =>
      if redirect || isExcluded patterns u then
        { st' with completion := st'.completion.filter (fun c => ¬(c.url = curl)) }
      else
        { st' with completion := completionInsert ⟨curl, title, atime⟩ st'.completion }

/-- Modelled from the spec and `TestAdd.test_from_tab`: `add_from_tab` records
the main URL as a non-redirect entry; when the originally requested URL is
valid and differs from it, that URL is additionally recorded as a redirect
with the same title and time.  Calls involving a `data:` URL or an empty main
URL do nothing at all. -/
def addFromTab (patterns : List String) (url requested : Url) (title : String)
    (atime : Int) (st : WebHistory) : WebHistory :=
  if url.scheme = "data" ∨ requested.scheme = "data" then st
  else if renderUrl url = "" then st
  else
    let st' :=
      if renderUrl requested ≠ "" ∧ renderUrl requested ≠ renderUrl url then
        addUrl patterns requested title atime true st
      else st
    addUrl patterns url title atime false st'

/-- Modelled from the spec: `delete_url` removes the History Log rows whose
stored (percent-encoded) URL equals the given URL's percent-encoded form, and
the Completion Index row with the matching normalized URL. -/
def deleteUrl (u : Url) (st : WebHistory) : WebHistory :=
  { st with
    log := st.log.filter (fun h => ¬(h.url = fmtHistory u)),
    completion := st.completion.filter (fun c => ¬(c.url = fmtCompletion u)) }

/-- Modelled from the spec: `clear` deletes all rows of both tables once the
asynchronous user confirmation resolves affirmatively (or `force` is given);
otherwise nothing changes. -/
def clearStore (confirmed : Bool) (st : WebHistory) : WebHistory :=
  if confirmed then { st with log := [], completion := [] } else st

/-- Modelled from the spec: one rebuild scan step — a History Log row
contributes a Completion Index row when it is not a redirect, its URL
normalizes, and it matches no exclusion pattern. -/
def rebuildStep (patterns : List String) (acc : List CompletionEntry)
    (h : HistoryEntry) : List CompletionEntry :=
  if h.redirect then acc
  else
    match normalizeStored h.url with
    | none => acc
    | some nu =>
      if isExcluded patterns (parseUrl h.url) then acc
      else completionInsert ⟨nu, h.title, h.atime⟩ acc

/-- Modelled from the spec: the rebuild scan over the whole History Log,
inserting the surviving rows into an initially empty Completion Index. -/
def rebuildCompletion (patterns : List String) (log : List HistoryEntry) :
    List CompletionEntry :=
  log.foldl (rebuildStep patterns) []

/-- Modelled from the spec: the full rebuild — delete all CompletionEntry
rows, then repopulate from the History Log. -/
def rebuildStore (patterns : List String) (st : WebHistory) : WebHistory :=
  { st with completion := rebuildCompletion patterns st.log }

/-- Modelled from the spec: the Rebuild Coordinator's decision table at store
open (first matching rule wins): 1. empty Completion Index → rebuild;
2. stored version differs from the compiled current version → rebuild, then
persist the current version; 3. `force_rebuild` set → rebuild, then clear the
flag; 4. otherwise no rebuild. -/
def openStore (currentVersion : Int) (patterns : List String) (st : WebHistory) : WebHistory :=
  if st.completion.isEmpty then rebuildStore patterns st
  else if st.metainfo.version ≠ currentVersion then
    let st' := rebuildStore patterns st
    { st' with metainfo := { st'.metainfo with version := currentVersion } }
  else if st.metainfo.force_rebuild then
    let st' := rebuildStore patterns st
    { st' with metainfo := { st'.metainfo with force_rebuild := false } }
  else st

/-- Whitespace characters stripped from import lines. -/
def isWS (c : Char) : Bool := c = ' ' || c = '\t' || c = '\r' || c = '\n'

/-- Strip leading and trailing whitespace from a character list. -/
def trimChars (l : List Char) : List Char :=
  ((l.dropWhile isWS).reverse.dropWhile isWS).reverse

/-- Result of parsing one line of the legacy history file. -/
inductive ImportLine where
  | skip : ImportLine
  | entry (atime : Int) (redirect : Bool) (url title : String) : ImportLine
deriving DecidableEq, Repr

/-- An accepted record of the legacy history file. -/
structure ImportEntry where
  atime : Int
  redirect : Bool
  url : String
  title : String
deriving DecidableEq, Repr

/-- Modelled from the spec: the deny-list of legacy-known-bad URL shapes that
the Text Importer silently skips — host `.com` and empty-label hosts of a
known broken form, and malformed over-long `data:` URLs. -/
def knownBadSkip (url : String) : Bool :=
  (["http://.com/", "https://.com/", "http://www..com/", "https://www..com/"].contains url) ||
  ((url.data.take 5 == ['d', 'a', 't', 'a', ':']) && url.data.length > 40)

/-- Split a character list on a separator character. -/
def splitOnChar (sep : Char) : List Char → List (List Char)
  | [] => [[]]
  | c :: t =>
    let r := splitOnChar sep t
    if c = sep then [] :: r
    else
      match r with
      | [] => [[c]]
      | h :: rt => (c :: h) :: rt

/-- Modelled from the spec: URL validation during import — a URL whose host has
an empty label under an `http(s)` scheme is invalid (a fatal parse error), and
the URL must round-trip cleanly through the engine's parser. -/
def importUrlValid (url : String) : Bool :=
  let u := parseUrl url
  (if u.scheme == "http" || u.scheme == "https" then
    let h := hostOf u
    (!h.isEmpty) && (splitOnChar '.' h.data).all (fun l => !l.isEmpty)
  else true) && decide (UrlWF u)

/-- Interpret a digit list as a base-10 number. -/
def digitsToNat (l : List Char) : Nat :=
  l.foldl (fun n c => n * 10 + (c.toNat - 48)) 0

/-- Modelled from the spec: parse one line of the legacy text history file,
format `<timestamp>[-r] <url> [<title>]`.  Blank lines and `#` comments are
skipped; a double flag, an unrecognized flag character or a non-integer
timestamp is a fatal parse error; legacy-known-bad URLs are skipped; any other
invalid URL is a fatal parse error. -/
def parseImportLine (line : String) : Except String ImportLine :=
  let l := trimChars line.data
  if l.isEmpty then .ok .skip
  else if l.head? = some '#' then .ok .skip
  else
    let tok := l.takeWhile (· != ' ')
    let restAll := l.drop tok.length
    if restAll.isEmpty then .error ("Invalid format: " ++ String.mk l)
    else
      let rest := restAll.dropWhile (· == ' ')
      let urlField := rest.takeWhile (· != ' ')
      let titleField := (rest.drop urlField.length).dropWhile (· == ' ')
      let ts := tok.takeWhile (· != '-')
      let flagPart := tok.drop ts.length
      let flagsRes : Except String Bool :=
        match flagPart with
        | [] => .ok false
        | _ :: fl =>
          if fl.contains '-' then .error ("Invalid flags: " ++ String.mk fl)
          else if fl.all (· == 'r') then .ok (fl.contains 'r')
          else .error ("Invalid flags: " ++ String.mk fl)
      match flagsRes with
      | .error m => .error m
      | .ok redirect =>
        if ts.isEmpty || !(ts.all (·.isDigit)) then
          .error ("Invalid timestamp: " ++ String.mk ts)
        else
          let url := String.mk urlField
          if knownBadSkip url then .ok .skip
          else if importUrlValid url then
            .ok (.entry (Int.ofNat (digitsToNat ts)) redirect url (String.mk titleField))
          else .error ("Invalid URL: " ++ url)

/-- Modelled from the spec: parse the whole legacy file; the first fatal line
aborts the run with its error, otherwise the accepted records are returned in
file order. -/
def importParse : List String → Except String (List ImportEntry)
  | [] => .ok []
  | line :: rest =>
    match parseImportLine line with
    | .error m => .error m
    | .ok .skip => importParse rest
    | .ok (.entry a r u t) =>
      match importParse rest with
      | .error m => .error m
      | .ok es => .ok (⟨a, r, u, t⟩ :: es)

/-- Modelled from the spec: every accepted record is inserted via the same
path as `add_url`. -/
def applyImport (patterns : List String) (entries : List ImportEntry)
    (st : WebHistory) : WebHistory :=
  entries.foldl (fun s e => addUrl patterns (parseUrl e.url) e.title e.atime e.redirect s) st

/-- Outcome of an `import_txt` run: the store afterwards, whether the source
file is still in place, and the user-facing failure message if any. -/
structure ImportOutcome where
  hist : WebHistory
  fileKept : Bool
  message : Option String
deriving DecidableEq, Repr

/-- Modelled from the spec: `import_txt` — a missing file is a silent no-op; a
fatal parse error aborts the whole run, leaves the file in place and reports
"Failed to import history: <reason>"; on success all accepted records are
applied and the file is consumed (moved to the backup). -/
def importTxt (patterns : List String) (file : Option (List String))
    (st : WebHistory) : ImportOutcome :=
  match file with
  | none => ⟨st, false, none⟩
  | some lines =>
    match importParse lines with
    | .error m => ⟨st, true, some ("Failed to import history: " ++ m)⟩
    | .ok entries => ⟨applyImport patterns entries st, false, none⟩

/-- Modelled from the spec: the two kinds of storage-backend errors —
environmental (disk/permissions/corruption) and internal bugs
(schema/constraint violations). -/
inductive SqlError where
  | environmental (msg : String)
  | bug (msg : String)
deriving DecidableEq, Repr

/-- The two storage statements of `add_url` at which a backend error can be
injected (as the unit tests do by monkeypatching `insert`). -/
inductive FaultSite where
  | historyInsert
  | completionInsert
deriving DecidableEq, Repr

/-- Modelled from the spec: `add_url` with an injected backend fault.  An
environmental error is caught: the operation is abandoned and the message
"Failed to write history: <reason>" is surfaced to the user.  A bug error is
re-raised to the caller unchanged (`.error`). -/
def addUrlFault (fault : Option (FaultSite × SqlError)) (patterns : List String)
    (u : Url) (title : String) (atime : Int) (redirect : Bool) (st : WebHistory) :
    Except SqlError (WebHistory × Option String) :=
  if renderUrl u = "" then .ok (st, none)
  else
    match fault with
    | some (.historyInsert, .environmental m) => .ok (st, some ("Failed to write history: " ++ m))
    | some (.historyInsert, .bug m) => .error (.bug m)
    | _ =>
      let st' := { st with log := logInsert ⟨fmtHistory u, title, atime, redirect⟩ st.log }
      match normalizeUrl u with
      | none => .ok (st', none)
      | some curl =>
        if redirect || isExcluded patterns u then
          .ok ({ st' with completion := st'.completion.filter (fun c => ¬(c.url = curl)) }, none)
        else
          match fault with
          | some (.completionInsert, .environmental m) =>
            .ok (st', some ("Failed to write history: " ++ m))
          | some (.completionInsert, .bug m) => .error (.bug m)
          | _ =>
            .ok ({ st' with completion := completionInsert ⟨curl, title, atime⟩ st'.completion }, none)

/-- URL-uniqueness of History Log rows. -/
def uniqLog (l : List HistoryEntry) : Prop := l.Pairwise (fun a b => a.url ≠ b.url)

/-- URL-uniqueness of Completion Index rows. -/
def uniqCompl (l : List CompletionEntry) : Prop := l.Pairwise (fun a b => a.url ≠ b.url)

instance uniqLogDecidable (l : List HistoryEntry) : Decidable (uniqLog l) :=
  inferInstanceAs (Decidable (List.Pairwise _ l))

instance uniqComplDecidable (l : List CompletionEntry) : Decidable (uniqCompl l) :=
  inferInstanceAs (Decidable (List.Pairwise _ l))

theorem mem_logInsert_self (e : HistoryEntry) : ∀ l, e ∈ logInsert e l
  | [] => by simp [logInsert]
  | h :: t => by
    by_cases hu : h.url = e.url
    · simp [logInsert, hu]
    · simp only [logInsert, if_neg hu, List.mem_cons]
      exact Or.inr (mem_logInsert_self e t)

theorem mem_logInsert_of_ne {x e : HistoryEntry} (hne : ¬(x.url = e.url)) :
    ∀ {l}, x ∈ l → x ∈ logInsert e l := by
  intro l
  induction l with
  | nil => intro h; simp at h
  | cons a t ih =>
    intro hx
    by_cases hu : a.url = e.url
    · simp only [logInsert, if_pos hu, List.mem_cons]
      rcases List.mem_cons.mp hx with rfl | hx
      · exact absurd hu hne
      · exact Or.inr hx
    · simp only [logInsert, if_neg hu, List.mem_cons]
      rcases List.mem_cons.mp hx with rfl | hx
      · exact Or.inl rfl
      · exact Or.inr (ih hx)

theorem eq_or_mem_of_mem_logInsert {x e : HistoryEntry} :
    ∀ {l}, x ∈ logInsert e l → x = e ∨ x ∈ l := by
  intro l
  induction l with
  | nil => intro h; simp [logInsert] at h; exact Or.inl h
  | cons a t ih =>
    intro hx
    by_cases hu : a.url = e.url
    · simp only [logInsert, if_pos hu, List.mem_cons] at hx
      rcases hx with rfl | hx
      · exact Or.inl rfl
      · exact Or.inr (List.mem_cons.mpr (Or.inr hx))
    · simp only [logInsert, if_neg hu, List.mem_cons] at hx
      rcases hx with rfl | hx
      · exact Or.inr (List.mem_cons.mpr (Or.inl rfl))
      · rcases ih hx with h | h
        · exact Or.inl h
        · exact Or.inr (List.mem_cons.mpr (Or.inr h))

theorem uniq_logInsert (e : HistoryEntry) : ∀ {l}, uniqLog l → uniqLog (logInsert e l) := by
  intro l
  induction l with
  | nil => intro _; simp [logInsert, uniqLog]
  | cons a t ih =>
    intro hu
    obtain ⟨ha, ht⟩ := List.pairwise_cons.mp hu
    by_cases hau : a.url = e.url
    · simp only [logInsert, if_pos hau]
      exact List.pairwise_cons.mpr ⟨fun b hb => hau ▸ ha b hb, ht⟩
    · simp only [logInsert, if_neg hau]
      refine List.pairwise_cons.mpr ⟨?_, ih ht⟩
      intro b hb
      rcases eq_or_mem_of_mem_logInsert hb with rfl | hb
      · exact hau
      · exact ha b hb

theorem mem_completionInsert_self (e : CompletionEntry) : ∀ l, e ∈ completionInsert e l
  | [] => by simp [completionInsert]
  | c :: t => by
    by_cases hu : c.url = e.url
    · simp [completionInsert, hu]
    · simp only [completionInsert, if_neg hu, List.mem_cons]
      exact Or.inr (mem_completionInsert_self e t)

theorem eq_or_mem_of_mem_completionInsert {x e : CompletionEntry} :
    ∀ {l}, x ∈ completionInsert e l → x = e ∨ x ∈ l := by
  intro l
  induction l with
  | nil => intro h; simp [completionInsert] at h; exact Or.inl h
  | cons a t ih =>
    intro hx
    by_cases hu : a.url = e.url
    · simp only [completionInsert, if_pos hu, List.mem_cons] at hx
      rcases hx with rfl | hx
      · exact Or.inl rfl
      · exact Or.inr (List.mem_cons.mpr (Or.inr hx))
    · simp only [completionInsert, if_neg hu, List.mem_cons] at hx
      rcases hx with rfl | hx
      · exact Or.inr (List.mem_cons.mpr (Or.inl rfl))
      · rcases ih hx with h | h
        · exact Or.inl h
        · exact Or.inr (List.mem_cons.mpr (Or.inr h))

theorem uniq_completionInsert (e : CompletionEntry) :
    ∀ {l}, uniqCompl l → uniqCompl (completionInsert e l) := by
  intro l
  induction l with
  | nil => intro _; simp [completionInsert, uniqCompl]
  | cons a t ih =>
    intro hu
    obtain ⟨ha, ht⟩ := List.pairwise_cons.mp hu
    by_cases hau : a.url = e.url
    · simp only [completionInsert, if_pos hau]
      exact List.pairwise_cons.mpr ⟨fun b hb => hau ▸ ha b hb, ht⟩
    · simp only [completionInsert, if_neg hau]
      refine List.pairwise_cons.mpr ⟨?_, ih ht⟩
      intro b hb
      rcases eq_or_mem_of_mem_completionInsert hb with rfl | hb
      · exact hau
      · exact ha b hb

/-- The store invariant: both tables are keyed (URL-unique), and every
Completion Index row is justified by a non-redirect History Log row whose
normalized URL is the row's URL. -/
def StoreInv (st : WebHistory) : Prop :=
  uniqLog st.log ∧ uniqCompl st.completion ∧
    ∀ c ∈ st.completion, ∃ h ∈ st.log, h.redirect = false ∧ normalizeStored h.url = some c.url

theorem normalizeUrl_some {u : Url} {x : String} (h : normalizeUrl u = some x) :
    x = fmtCompletion u := by
  unfold normalizeUrl at h
  split at h
  · cases h
  · injection h with h
    exact h.symm

theorem addUrl_inv (patterns : List String) (u : Url) (title : String) (atime : Int)
    (redirect : Bool) {st : WebHistory} (hwf : UrlWF u) (hin : StoreInv st) :
    StoreInv (addUrl patterns u title atime redirect st) := by
  obtain ⟨hul, huc, hw⟩ := hin
  have hnorm := normalizeStored_fmtHistory u hwf
  unfold addUrl
  by_cases hempty : renderUrl u = ""
  · simp only [if_pos hempty]
    exact ⟨hul, huc, hw⟩
  · simp only [if_neg hempty]
    have hlog : uniqLog (logInsert ⟨fmtHistory u, title, atime, redirect⟩ st.log) :=
      uniq_logInsert _ hul
    rcases hnu : normalizeUrl u with - | curl
    · simp only [hnu]
      refine ⟨hlog, huc, ?_⟩
      intro c hc
      obtain ⟨h, hhl, hred, hns⟩ := hw c hc
      by_cases hhu : h.url = fmtHistory u
      · exfalso
        rw [hhu, hnorm, hnu] at hns
        cases hns
      · exact ⟨h, mem_logInsert_of_ne hhu hhl, hred, hns⟩
    · have hcurl : curl = fmtCompletion u := normalizeUrl_some hnu
      simp only [hnu]
      split
      · -- removal branch: redirect or excluded
        refine ⟨hlog, List.Pairwise.sublist (List.filter_sublist _) huc, ?_⟩
        intro c hc
        obtain ⟨hcm, hcu⟩ := List.mem_filter.mp hc
        have hcu : ¬(c.url = curl) := by simpa using hcu
        obtain ⟨h, hhl, hred, hns⟩ := hw c hcm
        by_cases hhu : h.url = fmtHistory u
        · exfalso
          rw [hhu, hnorm, hnu] at hns
          injection hns with hns
          exact hcu hns.symm
        · exact ⟨h, mem_logInsert_of_ne hhu hhl, hred, hns⟩
      · -- insert branch: not a redirect, not excluded
        rename_i hbr
        have hredf : redirect = false := by
          simp only [Bool.or_eq_true, not_or, Bool.not_eq_true] at hbr
          exact hbr.1
        refine ⟨hlog, uniq_completionInsert _ huc, ?_⟩
        intro c hc
        rcases eq_or_mem_of_mem_completionInsert hc with rfl | hcm
        · refine ⟨⟨fmtHistory u, title, atime, redirect⟩, mem_logInsert_self _ _, hredf, ?_⟩
          rw [hnorm, hnu]
        · obtain ⟨h, hhl, hred, hns⟩ := hw c hcm
          by_cases hhu : h.url = fmtHistory u
          · -- the justifying row was overwritten, but the fresh row justifies c too
            rw [hhu, hnorm, hnu] at hns
            refine ⟨⟨fmtHistory u, title, atime, redirect⟩, mem_logInsert_self _ _, hredf, ?_⟩
            rw [hnorm, hnu, hns]
          · exact ⟨h, mem_logInsert_of_ne hhu hhl, hred, hns⟩

theorem addFromTab_inv (patterns : List String) (url requested : Url) (title : String)
    (atime : Int) {st : WebHistory} (hwf1 : UrlWF url) (hwf2 : UrlWF requested)
    (hin : StoreInv st) : StoreInv (addFromTab patterns url requested title atime st) := by
  unfold addFromTab
  split
  · exact hin
  · split
    · exact hin
    · by_cases hc : renderUrl requested ≠ "" ∧ renderUrl requested ≠ renderUrl url
      · simp only [if_pos hc]
        exact addUrl_inv _ _ _ _ _ hwf1 (addUrl_inv _ _ _ _ _ hwf2 hin)
      · simp only [if_neg hc]
        exact addUrl_inv _ _ _ _ _ hwf1 hin

theorem deleteUrl_inv (u : Url) {st : WebHistory} (hwf : UrlWF u) (hin : StoreInv st) :
    StoreInv (deleteUrl u st) := by
  obtain ⟨hul, huc, hw⟩ := hin
  have hnorm := normalizeStored_fmtHistory u hwf
  refine ⟨List.Pairwise.sublist (List.filter_sublist _) hul,
          List.Pairwise.sublist (List.filter_sublist _) huc, ?_⟩
  intro c hc
  obtain ⟨hcm, hcu⟩ := List.mem_filter.mp hc
  have hcu : ¬(c.url = fmtCompletion u) := by simpa using hcu
  obtain ⟨h, hhl, hred, hns⟩ := hw c hcm
  by_cases hhu : h.url = fmtHistory u
  · exfalso
    rw [hhu, hnorm] at hns
    exact hcu (normalizeUrl_some hns)
  · exact ⟨h, List.mem_filter.mpr ⟨hhl, by simpa using hhu⟩, hred, hns⟩

theorem clearStore_inv (confirmed : Bool) {st : WebHistory} (hin : StoreInv st) :
    StoreInv (clearStore confirmed st) := by
  unfold clearStore
  split
  · exact ⟨List.Pairwise.nil, List.Pairwise.nil, by simp⟩
  · exact hin

theorem uniq_rebuildStep (patterns : List String) (acc : List CompletionEntry)
    (h : HistoryEntry) (hacc : uniqCompl acc) : uniqCompl (rebuildStep patterns acc h) := by
  unfold rebuildStep
  split
  · exact hacc
  · split
    · exact hacc
    · split
      · exact hacc
      · exact uniq_completionInsert _ hacc

theorem uniq_rebuild_fold (patterns : List String) :
    ∀ (log : List HistoryEntry) (acc : List CompletionEntry), uniqCompl acc →
      uniqCompl (List.foldl (rebuildStep patterns) acc log) := by
  intro log
  induction log with
  | nil => intro acc h; exact h
  | cons hd t ih => intro acc h; exact ih _ (uniq_rebuildStep _ _ _ h)

theorem mem_rebuild_fold (patterns : List String) :
    ∀ (log : List HistoryEntry) (acc : List CompletionEntry) (c : CompletionEntry),
      c ∈ List.foldl (rebuildStep patterns) acc log →
      c ∈ acc ∨ ∃ h ∈ log, h.redirect = false ∧ isExcluded patterns (parseUrl h.url) = false ∧
        normalizeStored h.url = some c.url ∧ c.title = h.title ∧ c.atime = h.atime := by
  intro log
  induction log with
  | nil => intro acc c hc; exact Or.inl hc
  | cons hd t ih =>
    intro acc c hc
    rcases ih _ c hc with hacc | ⟨h, hm, hp⟩
    · unfold rebuildStep at hacc
      split at hacc
      · exact Or.inl hacc
      · rename_i hred
        split at hacc
        · exact Or.inl hacc
        · rename_i nu hnu
          split at hacc
          · exact Or.inl hacc
          · rename_i hexc
            rcases eq_or_mem_of_mem_completionInsert hacc with rfl | hacc
            · exact Or.inr ⟨hd, List.mem_cons_self _ _, by simpa using hred,
                by simpa using hexc, by simp [hnu], rfl, rfl⟩
            · exact Or.inl hacc
    · exact Or.inr ⟨h, List.mem_cons_of_mem _ hm, hp⟩

theorem url_mem_completionInsert (e : CompletionEntry) (v : String) :
    ∀ l, (∃ c ∈ l, c.url = v) → ∃ c ∈ completionInsert e l, c.url = v := by
  intro l
  induction l with
  | nil => rintro ⟨c, hc, -⟩; simp at hc
  | cons a t ih =>
    rintro ⟨c, hc, hcu⟩
    by_cases hu : a.url = e.url
    · simp only [completionInsert, if_pos hu]
      rcases List.mem_cons.mp hc with rfl | hc
      · exact ⟨e, List.mem_cons_self _ _, by rw [← hu]; exact hcu⟩
      · exact ⟨c, List.mem_cons_of_mem _ hc, hcu⟩
    · simp only [completionInsert, if_neg hu]
      rcases List.mem_cons.mp hc with rfl | hc
      · exact ⟨c, List.mem_cons_self _ _, hcu⟩
      · obtain ⟨x, hx, hxu⟩ := ih ⟨c, hc, hcu⟩
        exact ⟨x, List.mem_cons_of_mem _ hx, hxu⟩

theorem url_mem_rebuildStep (patterns : List String) (acc : List CompletionEntry)
    (h : HistoryEntry) (v : String) (hex : ∃ c ∈ acc, c.url = v) :
    ∃ c ∈ rebuildStep patterns acc h, c.url = v := by
  unfold rebuildStep
  split
  · exact hex
  · split
    · exact hex
    · split
      · exact hex
      · exact url_mem_completionInsert _ _ _ hex

theorem rebuild_fold_complete (patterns : List String) :
    ∀ (log : List HistoryEntry) (acc : List CompletionEntry) (v : String),
      ((∃ c ∈ acc, c.url = v) ∨ ∃ h ∈ log, h.redirect = false ∧
        isExcluded patterns (parseUrl h.url) = false ∧ normalizeStored h.url = some v) →
      ∃ c ∈ List.foldl (rebuildStep patterns) acc log, c.url = v := by
  intro log
  induction log with
  | nil =>
    intro acc v hv
    rcases hv with h | ⟨h, hm, -⟩
    · exact h
    · simp at hm
  | cons hd t ih =>
    intro acc v hv
    apply ih
    rcases hv with hex | ⟨h, hm, hred, hexc, hns⟩
    · exact Or.inl (url_mem_rebuildStep _ _ _ _ hex)
    · rcases List.mem_cons.mp hm with rfl | hm
      · left
        have hstep : rebuildStep patterns acc h = completionInsert ⟨v, h.title, h.atime⟩ acc := by
          simp [rebuildStep, hred, hns, hexc]
        rw [hstep]
        exact ⟨⟨v, h.title, h.atime⟩, mem_completionInsert_self _ _, rfl⟩
      · exact Or.inr ⟨h, hm, hred, hexc, hns⟩

theorem rebuildStore_inv (patterns : List String) {st : WebHistory} (hin : StoreInv st) :
    StoreInv (rebuildStore patterns st) := by
  obtain ⟨hul, -, -⟩ := hin
  refine ⟨hul, uniq_rebuild_fold patterns st.log [] (by simp [uniqCompl]), ?_⟩
  intro c hc
  rcases mem_rebuild_fold patterns st.log [] c hc with h | ⟨h, hm, hred, -, hns, -, -⟩
  · simp at h
  · exact ⟨h, hm, hred, hns⟩

theorem openStore_inv (v : Int) (patterns : List String) {st : WebHistory}
    (hin : StoreInv st) : StoreInv (openStore v patterns st) := by
  unfold openStore
  split
  · exact rebuildStore_inv patterns hin
  · split
    · obtain ⟨h1, h2, h3⟩ := rebuildStore_inv patterns hin
      exact ⟨h1, h2, h3⟩
    · split
      · obtain ⟨h1, h2, h3⟩ := rebuildStore_inv patterns hin
        exact ⟨h1, h2, h3⟩
      · exact hin

theorem importUrlValid_wf {url : String} (h : importUrlValid url = true) :
    UrlWF (parseUrl url) := by
  unfold importUrlValid at h
  exact of_decide_eq_true ((Bool.and_eq_true _ _).mp h).2

theorem parseImportLine_entry_valid {line : String} {a : Int} {r : Bool} {u t : String}
    (h : parseImportLine line = .ok (.entry a r u t)) : importUrlValid u = true := by
  unfold parseImportLine at h
  dsimp only at h
  split at h
  · simp at h
  · split at h
    · simp at h
    · split at h
      · simp at h
      · split at h
        · simp at h
        · rename_i redirect heq
          split at h
          · simp at h
          · split at h
            · simp at h
            · split at h
              · rename_i hvalid
                simp only [Except.ok.injEq, ImportLine.entry.injEq] at h
                obtain ⟨-, -, hu, -⟩ := h
                rw [← hu]
                exact hvalid
              · simp at h

theorem importParse_wf : ∀ {lines : List String} {entries : List ImportEntry},
    importParse lines = .ok entries → ∀ e ∈ entries, UrlWF (parseUrl e.url) := by
  intro lines
  induction lines with
  | nil =>
    intro entries h e he
    unfold importParse at h
    injection h with h
    subst h
    simp at he
  | cons line rest ih =>
    intro entries h e he
    unfold importParse at h
    split at h
    · simp at h
    · exact ih h e he
    · rename_i a r u t heq
      split at h
      · simp at h
      · rename_i es hres
        injection h with h
        subst h
        rcases List.mem_cons.mp he with rfl | he
        · exact importUrlValid_wf (parseImportLine_entry_valid heq)
        · exact ih hres e he

theorem applyImport_inv (patterns : List String) :
    ∀ (entries : List ImportEntry) {st : WebHistory}, StoreInv st →
      (∀ e ∈ entries, UrlWF (parseUrl e.url)) → StoreInv (applyImport patterns entries st) := by
  intro entries
  induction entries with
  | nil => intro st h _; exact h
  | cons e t ih =>
    intro st h hwf
    exact ih (addUrl_inv _ _ _ _ _ (hwf e (by simp)) h) (fun x hx => hwf x (by simp [hx]))

theorem importTxt_inv (patterns : List String) (file : Option (List String))
    {st : WebHistory} (hin : StoreInv st) : StoreInv (importTxt patterns file st).hist := by
  unfold importTxt
  match file with
  | none => exact hin
  | some lines =>
    rcases hres : importParse lines with m | entries
    · simp only [hres]
      exact hin
    · simp only [hres]
      exact applyImport_inv patterns entries hin (importParse_wf hres)

/-- The states of the store reachable from an empty store through the public
operations, with URL arguments as the browser engine would supply them
(well-formed). -/
inductive Reachable : WebHistory → Prop
  | init (m : MetaInfo) : Reachable ⟨[], [], m⟩
  | add_url {st : WebHistory} (patterns : List String) (u : Url) (title : String)
      (atime : Int) (redirect : Bool) : Reachable st → UrlWF u →
      Reachable (addUrl patterns u title atime redirect st)
  | add_from_tab {st : WebHistory} (patterns : List String) (url requested : Url)
      (title : String) (atime : Int) : Reachable st → UrlWF url → UrlWF requested →
      Reachable (addFromTab patterns url requested title atime st)
  | delete_url {st : WebHistory} (u : Url) : Reachable st → UrlWF u →
      Reachable (deleteUrl u st)
  | clear {st : WebHistory} (confirmed : Bool) : Reachable st →
      Reachable (clearStore confirmed st)
  | import_txt {st : WebHistory} (patterns : List String) (file : Option (List String)) :
      Reachable st → Reachable (importTxt patterns file st).hist
  | rebuild {st : WebHistory} (patterns : List String) : Reachable st →
      Reachable (rebuildStore patterns st)
  | open_store {st : WebHistory} (v : Int) (patterns : List String) : Reachable st →
      Reachable (openStore v patterns st)

theorem storeInv_of_reachable {st : WebHistory} (h : Reachable st) : StoreInv st := by
  induction h with
  | init m => exact ⟨List.Pairwise.nil, List.Pairwise.nil, by simp⟩
  | add_url patterns u title atime redirect _ hwf ih => exact addUrl_inv _ _ _ _ _ hwf ih
  | add_from_tab patterns url requested title atime _ hwf1 hwf2 ih =>
    exact addFromTab_inv _ _ _ _ _ hwf1 hwf2 ih
  | delete_url u _ hwf ih => exact deleteUrl_inv _ hwf ih
  | clear confirmed _ ih => exact clearStore_inv _ ih
  | import_txt patterns file _ ih => exact importTxt_inv _ _ ih
  | rebuild patterns _ ih => exact rebuildStore_inv _ ih
  | open_store v patterns _ ih => exact openStore_inv _ _ ih

/-- C1: for every reachable state of the store — i.e. after every sequence of
`add_url`, `add_from_tab`, `delete_url`, `clear`, `import_txt`, `rebuild` and
store-open operations starting from the empty store — every URL present in
the Completion Index has a corresponding History Log entry whose normalized
URL equals it and whose redirect flag is false (the reverse inclusion is not
asserted). -/
theorem completion_justified_by_log (st : WebHistory) (h : Reachable st) :
    ∀ c ∈ st.completion, ∃ e ∈ st.log,
      e.redirect = false ∧ normalizeStored e.url = some c.url :=
  (storeInv_of_reachable h).2.2

theorem completion_justified_by_log_witness :
    ∃ e ∈ (addUrl [] ⟨"https", "user", some "pass", true, "example.com"⟩ "the title" 12346
      false ⟨[], [], ⟨false, 0⟩⟩).log,
      e.redirect = false ∧
      normalizeStored e.url = some (⟨"https://user@example.com", "the title", 12346⟩ :
        CompletionEntry).url :=
  completion_justified_by_log _
    (Reachable.add_url [] ⟨"https", "user", some "pass", true, "example.com"⟩ "the title"
      12346 false (Reachable.init ⟨false, 0⟩) (by decide))
    ⟨"https://user@example.com", "the title", 12346⟩ (by decide)

theorem filter_url_nil (v : String) :
    ∀ (t : List HistoryEntry), (∀ b ∈ t, ¬(b.url = v)) →
      t.filter (fun x => x.url = v) = [] := by
  intro t
  induction t with
  | nil => intro _; rfl
  | cons a s ih =>
    intro h
    rw [List.filter_cons_of_neg (by simpa using h a (by simp))]
    exact ih (fun b hb => h b (by simp [hb]))

theorem logInsert_length_of_mem {e : HistoryEntry} :
    ∀ {L : List HistoryEntry}, (∃ e₀ ∈ L, e₀.url = e.url) →
      (logInsert e L).length = L.length := by
  intro L
  induction L with
  | nil => rintro ⟨e₀, h, -⟩; simp at h
  | cons a t ih =>
    rintro ⟨e₀, hm, hurl⟩
    by_cases hu : a.url = e.url
    · simp [logInsert, hu]
    · simp only [logInsert, if_neg hu, List.length_cons]
      congr 1
      apply ih
      rcases List.mem_cons.mp hm with rfl | hm
      · exact absurd hurl hu
      · exact ⟨e₀, hm, hurl⟩

theorem filter_logInsert_self {e : HistoryEntry} :
    ∀ {L : List HistoryEntry}, uniqLog L →
      (logInsert e L).filter (fun x => x.url = e.url) = [e] := by
  intro L
  induction L with
  | nil => intro _; simp [logInsert]
  | cons a t ih =>
    intro hu
    obtain ⟨ha, ht⟩ := List.pairwise_cons.mp hu
    by_cases hau : a.url = e.url
    · simp only [logInsert, if_pos hau]
      rw [List.filter_cons_of_pos (by simp)]
      rw [filter_url_nil e.url t (fun b hb => by
        have := ha b hb
        rw [hau] at this
        exact fun hb2 => this hb2.symm)]
    · simp only [logInsert, if_neg hau]
      rw [List.filter_cons_of_neg (by simpa using fun h => hau h)]
      exact ih ht

/-- C4: inserting a History Log entry for a URL that already has a row
overwrites that row (same row count, and the rows for that URL are exactly
the new one); in particular inserting `(u, "A", 1)` and then `(u, "B", 2)`
leaves exactly the row `(u, "B", 2)` for `u`. -/
theorem logInsert_last_write_wins (L : List HistoryEntry) (u : String) (hu : uniqLog L)
    (e : HistoryEntry) (hurl : e.url = u) (hex : ∃ e₀ ∈ L, e₀.url = u) :
    (logInsert e L).length = L.length ∧
    (logInsert e L).filter (fun x => x.url = u) = [e] ∧
    (logInsert ⟨u, "B", 2, false⟩ (logInsert ⟨u, "A", 1, false⟩ L)).filter
      (fun x => x.url = u) = [⟨u, "B", 2, false⟩] := by
  refine ⟨logInsert_length_of_mem (hurl ▸ hex), ?_, ?_⟩
  · have := filter_logInsert_self (e := e) hu
    rw [hurl] at this
    exact this
  · have huA : uniqLog (logInsert (⟨u, "A", 1, false⟩ : HistoryEntry) L) :=
      uniq_logInsert _ hu
    have := filter_logInsert_self (e := (⟨u, "B", 2, false⟩ : HistoryEntry)) huA
    exact this

theorem logInsert_last_write_wins_witness :
    (logInsert ⟨"http://e.com/", "B", 2, false⟩
        [⟨"http://e.com/", "A", 1, false⟩, ⟨"http://f.com/", "t", 5, false⟩]).length = 2 ∧
    (logInsert ⟨"http://e.com/", "B", 2, false⟩
        [⟨"http://e.com/", "A", 1, false⟩, ⟨"http://f.com/", "t", 5, false⟩]).filter
      (fun x => x.url = "http://e.com/") = [⟨"http://e.com/", "B", 2, false⟩] ∧
    (logInsert ⟨"http://e.com/", "B", 2, false⟩ (logInsert ⟨"http://e.com/", "A", 1, false⟩
        [⟨"http://e.com/", "A", 1, false⟩, ⟨"http://f.com/", "t", 5, false⟩])).filter
      (fun x => x.url = "http://e.com/") = [⟨"http://e.com/", "B", 2, false⟩] :=
  logInsert_last_write_wins
    [⟨"http://e.com/", "A", 1, false⟩, ⟨"http://f.com/", "t", 5, false⟩]
    "http://e.com/" (by decide) ⟨"http://e.com/", "B", 2, false⟩ rfl
    ⟨⟨"http://e.com/", "A", 1, false⟩, by decide, rfl⟩

/-- C9: `delete_url` removes exactly the History Log rows whose URL, once
percent-encoded, equals the given URL's percent-encoded (storage) form, and
the Completion Index row carrying the URL's normalized form; all other rows
of both tables, and the MetaInfo, are untouched.  The hypothesis states that
the stored log URLs are in canonical encoded form, which holds for rows
written through the store's own operations. -/
theorem deleteUrl_frame (u : Url) (st : WebHistory)
    (henc : ∀ h ∈ st.log, encodeSpaces h.url = h.url) :
    (deleteUrl u st).log =
      st.log.filter (fun h => ¬(encodeSpaces h.url = fmtHistory u)) ∧
    (deleteUrl u st).completion =
      st.completion.filter (fun c => ¬(c.url = fmtCompletion u)) ∧
    (deleteUrl u st).metainfo = st.metainfo := by
  refine ⟨?_, rfl, rfl⟩
  show st.log.filter (fun h => ¬(h.url = fmtHistory u)) =
    st.log.filter (fun h => ¬(encodeSpaces h.url = fmtHistory u))
  apply List.filter_congr
  intro h hm
  rw [henc h hm]

theorem deleteUrl_frame_witness :
    (deleteUrl ⟨"http", "", none, true, "example.com/1 2"⟩
      ⟨[⟨"http://example.com/1%202", "", 0, false⟩, ⟨"http://example.com/2", "", 0, false⟩],
       [⟨"http://example.com/1 2", "", 0⟩, ⟨"http://example.com/2", "", 0⟩],
       ⟨false, 0⟩⟩).log =
      [⟨"http://example.com/1%202", "", 0, false⟩, ⟨"http://example.com/2", "", 0, false⟩].filter
        (fun h => ¬(encodeSpaces h.url =
          fmtHistory ⟨"http", "", none, true, "example.com/1 2"⟩)) ∧
    (deleteUrl ⟨"http", "", none, true, "example.com/1 2"⟩
      ⟨[⟨"http://example.com/1%202", "", 0, false⟩, ⟨"http://example.com/2", "", 0, false⟩],
       [⟨"http://example.com/1 2", "", 0⟩, ⟨"http://example.com/2", "", 0⟩],
       ⟨false, 0⟩⟩).completion =
      [⟨"http://example.com/1 2", "", 0⟩, ⟨"http://example.com/2", "", 0⟩].filter
        (fun c => ¬(c.url = fmtCompletion ⟨"http", "", none, true, "example.com/1 2"⟩)) ∧
    (deleteUrl ⟨"http", "", none, true, "example.com/1 2"⟩
      ⟨[⟨"http://example.com/1%202", "", 0, false⟩, ⟨"http://example.com/2", "", 0, false⟩],
       [⟨"http://example.com/1 2", "", 0⟩, ⟨"http://example.com/2", "", 0⟩],
       ⟨false, 0⟩⟩).metainfo = ⟨false, 0⟩ :=
  deleteUrl_frame ⟨"http", "", none, true, "example.com/1 2"⟩
    ⟨[⟨"http://example.com/1%202", "", 0, false⟩, ⟨"http://example.com/2", "", 0, false⟩],
     [⟨"http://example.com/1 2", "", 0⟩, ⟨"http://example.com/2", "", 0⟩],
     ⟨false, 0⟩⟩ (by decide)

/-- C10: a valid non-redirect URL added via `add_url` gets a CompletionEntry
whose URL is the privacy-normalized form — the rendering with credentials
stripped; when normalization fails (empty or `data:` URL), the Completion
Index is left without any new entry. -/
theorem addUrl_completion_normalized (patterns : List String) (u : Url) (title : String)
    (atime : Int) (st : WebHistory) :
    (normalizeUrl u = none →
      (addUrl patterns u title atime false st).completion = st.completion) ∧
    (∀ nu, normalizeUrl u = some nu → isExcluded patterns u = false → renderUrl u ≠ "" →
      nu = renderUrl { u with password := none } ∧
      (addUrl patterns u title atime false st).completion =
        completionInsert ⟨renderUrl { u with password := none }, title, atime⟩
          st.completion) := by
  constructor
  · intro hnone
    unfold addUrl
    by_cases hne : renderUrl u = ""
    · simp [hne]
    · simp [hne, hnone]
  · intro nu hnu hexc hne
    have hfc : nu = fmtCompletion u := normalizeUrl_some hnu
    refine ⟨hfc, ?_⟩
    unfold addUrl
    simp [hne, hnu, hexc]
    rw [hfc]
    rfl

theorem addUrl_completion_normalized_witness :
    (normalizeUrl ⟨"https", "user", some "pass", true, "example.com"⟩ = none →
      (addUrl [] ⟨"https", "user", some "pass", true, "example.com"⟩ "the title" 12346 false
        ⟨[], [], ⟨false, 0⟩⟩).completion = []) ∧
    (∀ nu, normalizeUrl ⟨"https", "user", some "pass", true, "example.com"⟩ = some nu →
      isExcluded [] ⟨"https", "user", some "pass", true, "example.com"⟩ = false →
      renderUrl ⟨"https", "user", some "pass", true, "example.com"⟩ ≠ "" →
      nu = renderUrl { (⟨"https", "user", some "pass", true, "example.com"⟩ : Url) with
        password := none } ∧
      (addUrl [] ⟨"https", "user", some "pass", true, "example.com"⟩ "the title" 12346 false
        ⟨[], [], ⟨false, 0⟩⟩).completion =
        completionInsert ⟨renderUrl { (⟨"https", "user", some "pass", true, "example.com"⟩ :
          Url) with password := none }, "the title", 12346⟩ []) :=
  addUrl_completion_normalized [] ⟨"https", "user", some "pass", true, "example.com"⟩
    "the title" 12346 ⟨[], [], ⟨false, 0⟩⟩

/-- C2: at store open the Completion Index is rebuilt from the History Log
when (and only when) it is empty, the stored version differs from the current
one, or `force_rebuild` is set; absent all three conditions opening leaves the
store — in particular an already non-empty Completion Index — unchanged; and
a `force_rebuild`-triggered rebuild resets the flag. -/
theorem openStore_rebuild_policy (v : Int) (patterns : List String) (st : WebHistory) :
    ((st.completion.isEmpty = true ∨ st.metainfo.version ≠ v ∨
        st.metainfo.force_rebuild = true) →
      (openStore v patterns st).completion = rebuildCompletion patterns st.log) ∧
    (st.completion.isEmpty = false → st.metainfo.version = v →
      st.metainfo.force_rebuild = false → openStore v patterns st = st) ∧
    (st.completion.isEmpty = false → st.metainfo.version = v →
      st.metainfo.force_rebuild = true →
      (openStore v patterns st).metainfo.force_rebuild = false) := by
  unfold openStore
  refine ⟨?_, ?_, ?_⟩
  · intro hcond
    by_cases h1 : st.completion.isEmpty = true
    · rw [if_pos h1]
      rfl
    · rw [if_neg h1]
      by_cases h2 : st.metainfo.version ≠ v
      · rw [if_pos h2]
        rfl
      · rw [if_neg h2]
        by_cases h3 : st.metainfo.force_rebuild = true
        · rw [if_pos h3]
          rfl
        · rcases hcond with h | h | h
          exacts [absurd h h1, absurd h h2, absurd h h3]
  · intro h1 h2 h3
    rw [if_neg (by simp [h1]), if_neg (by simp [h2]), if_neg (by simp [h3])]
  · intro h1 h2 h3
    rw [if_neg (by simp [h1]), if_neg (by simp [h2]), if_pos h3]

theorem openStore_rebuild_policy_witness :
    (openStore 0 [] ⟨[⟨"http://a.com/", "", 1, false⟩], [], ⟨false, 0⟩⟩).completion =
      rebuildCompletion [] [⟨"http://a.com/", "", 1, false⟩] ∧
    openStore 0 [] ⟨[⟨"http://a.com/", "", 1, false⟩], [⟨"http://a.com/", "", 1⟩],
      ⟨false, 0⟩⟩ =
      ⟨[⟨"http://a.com/", "", 1, false⟩], [⟨"http://a.com/", "", 1⟩], ⟨false, 0⟩⟩ ∧
    (openStore 0 [] ⟨[⟨"http://a.com/", "", 1, false⟩], [⟨"http://a.com/", "", 1⟩],
      ⟨true, 0⟩⟩).metainfo.force_rebuild = false :=
  ⟨(openStore_rebuild_policy 0 []
      ⟨[⟨"http://a.com/", "", 1, false⟩], [], ⟨false, 0⟩⟩).1 (Or.inl (by decide)),
   (openStore_rebuild_policy 0 []
      ⟨[⟨"http://a.com/", "", 1, false⟩], [⟨"http://a.com/", "", 1⟩], ⟨false, 0⟩⟩).2.1
      (by decide) (by decide) (by decide),
   (openStore_rebuild_policy 0 []
      ⟨[⟨"http://a.com/", "", 1, false⟩], [⟨"http://a.com/", "", 1⟩], ⟨true, 0⟩⟩).2.2
      (by decide) (by decide) (by decide)⟩

theorem uniqLog_eq_of_url : ∀ {L : List HistoryEntry}, uniqLog L →
    ∀ {a b : HistoryEntry}, a ∈ L → b ∈ L → a.url = b.url → a = b := by
  intro L
  induction L with
  | nil => intro _ a b ha _ _; simp at ha
  | cons x t ih =>
    intro hu a b ha hb heq
    obtain ⟨hx, ht⟩ := List.pairwise_cons.mp hu
    rcases List.mem_cons.mp ha with rfl | ha2 <;> rcases List.mem_cons.mp hb with rfl | hb2
    · rfl
    · exact absurd heq (hx b hb2)
    · exact absurd heq.symm (hx a ha2)
    · exact ih ht ha2 hb2 heq

/-- C3: the rebuild deletes all Completion Index rows (the result does not
depend on the prior index), and repopulates exactly from the History Log rows
that are not redirects, normalize successfully and match no exclusion
pattern; since the log is URL-unique, the surviving row for each URL is the
one with the greatest access time among rows sharing that URL. -/
theorem rebuildStore_characterization (patterns : List String) (st : WebHistory)
    (huniq : uniqLog st.log) :
    (∀ cs, (rebuildStore patterns { st with completion := cs }).completion =
      (rebuildStore patterns st).completion) ∧
    (∀ c ∈ (rebuildStore patterns st).completion, ∃ h ∈ st.log,
      h.redirect = false ∧ isExcluded patterns (parseUrl h.url) = false ∧
      normalizeStored h.url = some c.url ∧ c.title = h.title ∧ c.atime = h.atime ∧
      ∀ h₂ ∈ st.log, h₂.url = h.url → h₂.atime ≤ h.atime) ∧
    (∀ h ∈ st.log, h.redirect = false → isExcluded patterns (parseUrl h.url) = false →
      ∀ nu, normalizeStored h.url = some nu →
        ∃ c ∈ (rebuildStore patterns st).completion, c.url = nu) := by
  refine ⟨fun cs => rfl, ?_, ?_⟩
  · intro c hc
    rcases mem_rebuild_fold patterns st.log [] c hc with h | ⟨h, hm, hred, hexc, hns, ht, ha⟩
    · simp at h
    · refine ⟨h, hm, hred, hexc, hns, ht, ha, ?_⟩
      intro h₂ hm₂ hurl
      have heq2 : h₂ = h := uniqLog_eq_of_url huniq hm₂ hm hurl
      rw [heq2]
  · intro h hm hred hexc nu hns
    exact rebuild_fold_complete patterns st.log [] nu (Or.inr ⟨h, hm, hred, hexc, hns⟩)

theorem rebuildStore_characterization_witness :
    (∀ cs, (rebuildStore []
        { (⟨[⟨"example.com/1", "example1", 2, false⟩, ⟨"example.com/3", "example3", 4, true⟩,
            ⟨"example.com/2 3", "example2", 5, false⟩], [], ⟨false, 0⟩⟩ : WebHistory) with
          completion := cs }).completion =
      (rebuildStore [] ⟨[⟨"example.com/1", "example1", 2, false⟩,
        ⟨"example.com/3", "example3", 4, true⟩, ⟨"example.com/2 3", "example2", 5, false⟩],
        [], ⟨false, 0⟩⟩).completion) ∧
    (∀ c ∈ (rebuildStore [] ⟨[⟨"example.com/1", "example1", 2, false⟩,
        ⟨"example.com/3", "example3", 4, true⟩, ⟨"example.com/2 3", "example2", 5, false⟩],
        [], ⟨false, 0⟩⟩).completion,
      ∃ h ∈ [⟨"example.com/1", "example1", 2, false⟩,
        ⟨"example.com/3", "example3", 4, true⟩,
        (⟨"example.com/2 3", "example2", 5, false⟩ : HistoryEntry)],
      h.redirect = false ∧ isExcluded [] (parseUrl h.url) = false ∧
      normalizeStored h.url = some c.url ∧ c.title = h.title ∧ c.atime = h.atime ∧
      ∀ h₂ ∈ [⟨"example.com/1", "example1", 2, false⟩,
        ⟨"example.com/3", "example3", 4, true⟩,
        (⟨"example.com/2 3", "example2", 5, false⟩ : HistoryEntry)],
        h₂.url = h.url → h₂.atime ≤ h.atime) ∧
    (∀ h ∈ [⟨"example.com/1", "example1", 2, false⟩,
        ⟨"example.com/3", "example3", 4, true⟩,
        (⟨"example.com/2 3", "example2", 5, false⟩ : HistoryEntry)],
      h.redirect = false → isExcluded [] (parseUrl h.url) = false →
      ∀ nu, normalizeStored h.url = some nu →
        ∃ c ∈ (rebuildStore [] ⟨[⟨"example.com/1", "example1", 2, false⟩,
          ⟨"example.com/3", "example3", 4, true⟩,
          ⟨"example.com/2 3", "example2", 5, false⟩], [], ⟨false, 0⟩⟩).completion,
          c.url = nu) :=
  rebuildStore_characterization [] ⟨[⟨"example.com/1", "example1", 2, false⟩,
    ⟨"example.com/3", "example3", 4, true⟩, ⟨"example.com/2 3", "example2", 5, false⟩],
    [], ⟨false, 0⟩⟩ (by unfold uniqLog; decide)

/-- C5 (amended): `add_from_tab` records the main URL as a non-redirect entry
and additionally records the requested URL as a redirect when it is valid and
differs from the main URL; the whole call is a no-op when the main URL is
empty or either URL has scheme `data:`; but an empty/invalid requested URL
alone only skips the redirect entry — the main URL is still recorded. -/
theorem addFromTab_characterization (patterns : List String) (url requested : Url)
    (title : String) (atime : Int) (st : WebHistory) :
    ((renderUrl url = "" ∨ url.scheme = "data" ∨ requested.scheme = "data") →
      addFromTab patterns url requested title atime st = st) ∧
    (renderUrl url ≠ "" → url.scheme ≠ "data" → requested.scheme ≠ "data" →
      ((renderUrl requested = "" ∨ renderUrl requested = renderUrl url) →
        addFromTab patterns url requested title atime st =
          addUrl patterns url title atime false st) ∧
      (renderUrl requested ≠ "" → renderUrl requested ≠ renderUrl url →
        addFromTab patterns url requested title atime st =
          addUrl patterns url title atime false
            (addUrl patterns requested title atime true st))) := by
  constructor
  · intro hcond
    unfold addFromTab
    by_cases hd : url.scheme = "data" ∨ requested.scheme = "data"
    · rw [if_pos hd]
    · rw [if_neg hd]
      rcases hcond with h | h | h
      · rw [if_pos h]
      · exact absurd (Or.inl h) hd
      · exact absurd (Or.inr h) hd
  · intro h1 h2 h3
    unfold addFromTab
    rw [if_neg (by rintro (h | h); exacts [h2 h, h3 h]), if_neg h1]
    constructor
    · intro hreq
      rw [if_neg (by rintro ⟨hc1, hc2⟩; rcases hreq with h | h; exacts [hc1 h, hc2 h])]
    · intro hne hdiff
      rw [if_pos ⟨hne, hdiff⟩]

theorem addFromTab_characterization_witness :
    (addFromTab [] ⟨"data", "", none, false, "foo"⟩ ⟨"", "", none, true, ""⟩ "title" 12345
      ⟨[], [], ⟨false, 0⟩⟩ = ⟨[], [], ⟨false, 0⟩⟩) ∧
    (addFromTab [] ⟨"", "", none, true, "a.com"⟩ ⟨"", "", none, true, ""⟩ "title" 12345
      ⟨[], [], ⟨false, 0⟩⟩ =
      addUrl [] ⟨"", "", none, true, "a.com"⟩ "title" 12345 false ⟨[], [], ⟨false, 0⟩⟩) ∧
    (addFromTab [] ⟨"", "", none, true, "a.com"⟩ ⟨"", "", none, true, "b.com"⟩ "title" 12345
      ⟨[], [], ⟨false, 0⟩⟩ =
      addUrl [] ⟨"", "", none, true, "a.com"⟩ "title" 12345 false
        (addUrl [] ⟨"", "", none, true, "b.com"⟩ "title" 12345 true ⟨[], [], ⟨false, 0⟩⟩)) :=
  ⟨(addFromTab_characterization [] ⟨"data", "", none, false, "foo"⟩ ⟨"", "", none, true, ""⟩
      "title" 12345 ⟨[], [], ⟨false, 0⟩⟩).1 (Or.inr (Or.inl rfl)),
   ((addFromTab_characterization [] ⟨"", "", none, true, "a.com"⟩ ⟨"", "", none, true, ""⟩
      "title" 12345 ⟨[], [], ⟨false, 0⟩⟩).2 (by decide) (by decide) (by decide)).1
      (Or.inl rfl),
   ((addFromTab_characterization [] ⟨"", "", none, true, "a.com"⟩ ⟨"", "", none, true, "b.com"⟩
      "title" 12345 ⟨[], [], ⟨false, 0⟩⟩).2 (by decide) (by decide) (by decide)).2
      (by decide) (by decide)⟩

/-- C5 counterexample: the claim states that a call in which either URL is
empty or invalid is a no-op that adds nothing to the History Log; but with a
valid main URL and an empty requested URL the main URL is still recorded, as
the `('a.com', '')` row of `TestAdd.test_from_tab` requires. -/
theorem addFromTab_empty_requested_not_noop :
    renderUrl (⟨"", "", none, true, ""⟩ : Url) = "" ∧
    (addFromTab [] ⟨"", "", none, true, "a.com"⟩ ⟨"", "", none, true, ""⟩ "title" 12345
      ⟨[], [], ⟨false, 0⟩⟩).log = [⟨"a.com", "title", 12345, false⟩] :=
  ⟨rfl, by decide⟩

/-- The line defects the claim calls fatal, stated on the line's first
whitespace-separated token after stripping: a non-integer timestamp, a second
`-` after the timestamp (double flag), or an unrecognized flag character
(anything but `r`); blank lines and `#` comments are exempt. -/
def FatalLineDefect (line : String) : Prop :=
  ¬(trimChars line.data).isEmpty = true ∧
  ¬(trimChars line.data).head? = some '#' ∧
  (let tok := List.takeWhile (· != ' ') (trimChars line.data)
   let ts := List.takeWhile (· != '-') tok
   let flagPart := List.drop ts.length tok
   (ts.isEmpty = true ∨ ¬ts.all (·.isDigit) = true) ∨
   (¬flagPart = [] ∧ ((flagPart.drop 1).contains '-' = true ∨
     ¬(flagPart.drop 1).all (· == 'r') = true)))

theorem parseImportLine_error_of_defect {line : String} (hdef : FatalLineDefect line) :
    ∃ m, parseImportLine line = .error m := by
  obtain ⟨hne, hnh, hrest⟩ := hdef
  unfold parseImportLine
  dsimp only at hrest ⊢
  rw [if_neg hne, if_neg hnh]
  by_cases hra : (List.drop (List.takeWhile (· != ' ') (trimChars line.data)).length
      (trimChars line.data)).isEmpty = true
  · rw [if_pos hra]
    exact ⟨_, rfl⟩
  · rw [if_neg hra]
    rcases hfp : List.drop (List.takeWhile (· != '-')
        (List.takeWhile (· != ' ') (trimChars line.data))).length
        (List.takeWhile (· != ' ') (trimChars line.data)) with - | ⟨c, fl⟩
    · dsimp only
      rcases hrest with hts | ⟨hcon, -⟩
      · have hcond : ((List.takeWhile (· != '-')
            (List.takeWhile (· != ' ') (trimChars line.data))).isEmpty ||
            !(List.takeWhile (· != '-')
              (List.takeWhile (· != ' ') (trimChars line.data))).all (·.isDigit)) = true := by
          rcases hts with h | h
          · simp [h]
          · simp only [Bool.or_eq_true, Bool.not_eq_true']
            right
            simpa using h
        rw [if_pos hcond]
        exact ⟨_, rfl⟩
      · exact absurd hfp hcon
    · rw [hfp] at hrest
      simp only [List.drop_succ_cons, List.drop_zero] at hrest
      dsimp only
      by_cases hcon : fl.contains '-' = true
      · rw [if_pos hcon]
        exact ⟨_, rfl⟩
      · rw [if_neg hcon]
        by_cases hall : fl.all (· == 'r') = true
        · rw [if_pos hall]
          dsimp only
          rcases hrest with hts | ⟨-, hbad⟩
          · have hcond : ((List.takeWhile (· != '-')
                (List.takeWhile (· != ' ') (trimChars line.data))).isEmpty ||
                !(List.takeWhile (· != '-')
                  (List.takeWhile (· != ' ') (trimChars line.data))).all (·.isDigit)) = true := by
              rcases hts with h | h
              · simp [h]
              · simp only [Bool.or_eq_true, Bool.not_eq_true']
                right
                simpa using h
            rw [if_pos hcond]
            exact ⟨_, rfl⟩
          · rcases hbad with h | h
            · exact absurd h (by simpa using hcon)
            · exact absurd hall (by simpa using h)
        · rw [if_neg hall]
          exact ⟨_, rfl⟩

theorem importParse_ok_line : ∀ {lines : List String} {entries : List ImportEntry},
    importParse lines = .ok entries → ∀ l ∈ lines, ∃ r, parseImportLine l = .ok r := by
  intro lines
  induction lines with
  | nil => intro entries _ l hl; simp at hl
  | cons line rest ih =>
    intro entries h l hl
    unfold importParse at h
    split at h
    · simp at h
    · rename_i heq
      rcases List.mem_cons.mp hl with rfl | hl
      · exact ⟨.skip, heq⟩
      · exact ih h l hl
    · rename_i a r u t heq
      split at h
      · simp at h
      · rename_i es hres
        rcases List.mem_cons.mp hl with rfl | hl
        · exact ⟨.entry a r u t, heq⟩
        · exact ih hres l hl

/-- C6: a line with a non-integer timestamp, a double flag, or an
unrecognized flag character aborts the entire import run atomically: the
History Log is untouched, the source file is left in place, and the failure
is reported as "Failed to import history: <reason>" (returned as a message,
not an exception). -/
theorem importTxt_fatal_aborts (patterns : List String) (lines : List String)
    (st : WebHistory) (line : String) (hmem : line ∈ lines)
    (hdef : FatalLineDefect line) :
    (importTxt patterns (some lines) st).hist = st ∧
    (importTxt patterns (some lines) st).fileKept = true ∧
    ∃ reason, (importTxt patterns (some lines) st).message =
      some ("Failed to import history: " ++ reason) := by
  obtain ⟨m, hm⟩ := parseImportLine_error_of_defect hdef
  rcases hres : importParse lines with merr | entries
  · have houtc : importTxt patterns (some lines) st =
        ⟨st, true, some ("Failed to import history: " ++ merr)⟩ := by
      unfold importTxt
      dsimp only
      rw [hres]
    rw [houtc]
    exact ⟨rfl, rfl, merr, rfl⟩
  · exfalso
    obtain ⟨r, hr⟩ := importParse_ok_line hres line hmem
    rw [hm] at hr
    simp at hr

theorem importTxt_fatal_aborts_witness :
    (importTxt [] (some ["xyz http://example.com/bad-timestamp"])
      ⟨[], [], ⟨false, 0⟩⟩).hist = ⟨[], [], ⟨false, 0⟩⟩ ∧
    (importTxt [] (some ["xyz http://example.com/bad-timestamp"])
      ⟨[], [], ⟨false, 0⟩⟩).fileKept = true ∧
    ∃ reason, (importTxt [] (some ["xyz http://example.com/bad-timestamp"])
      ⟨[], [], ⟨false, 0⟩⟩).message =
      some ("Failed to import history: " ++ reason) :=
  importTxt_fatal_aborts [] ["xyz http://example.com/bad-timestamp"] ⟨[], [], ⟨false, 0⟩⟩
    "xyz http://example.com/bad-timestamp" (by simp)
    ⟨by decide, by decide, Or.inl (Or.inr (by decide))⟩

/-- The line shapes the claim calls silently skippable: blank lines, `#`
comments, and otherwise well-formed lines whose URL is one of the
legacy-known-bad shapes. -/
def SkippableLine (line : String) : Prop :=
  (trimChars line.data).isEmpty = true ∨
  (trimChars line.data).head? = some '#' ∨
  (let tok := List.takeWhile (· != ' ') (trimChars line.data)
   let restAll := List.drop tok.length (trimChars line.data)
   let rest := List.dropWhile (· == ' ') restAll
   let urlField := List.takeWhile (· != ' ') rest
   let ts := List.takeWhile (· != '-') tok
   let flagPart := List.drop ts.length tok
   ¬restAll.isEmpty = true ∧ ¬ts.isEmpty = true ∧ ts.all (·.isDigit) = true ∧
   (flagPart.drop 1).contains '-' = false ∧ (flagPart.drop 1).all (· == 'r') = true ∧
   knownBadSkip (String.mk urlField) = true)

theorem parseImportLine_skip_of_skippable {line : String} (hs : SkippableLine line) :
    parseImportLine line = .ok .skip := by
  unfold parseImportLine
  dsimp only
  by_cases h1 : (trimChars line.data).isEmpty = true
  · rw [if_pos h1]
  · rw [if_neg h1]
    by_cases h2 : (trimChars line.data).head? = some '#'
    · rw [if_pos h2]
    · rw [if_neg h2]
      unfold SkippableLine at hs
      dsimp only at hs
      rcases hs with h | h | ⟨hra, hts1, hts2, hcon, hall, hbad⟩
      · exact absurd h h1
      · exact absurd h h2
      · rw [if_neg hra]
        have htsc : ((List.takeWhile (· != '-')
            (List.takeWhile (· != ' ') (trimChars line.data))).isEmpty ||
            !(List.takeWhile (· != '-')
              (List.takeWhile (· != ' ') (trimChars line.data))).all (·.isDigit)) = false := by
          simp only [Bool.or_eq_false_iff, Bool.not_eq_true']
          exact ⟨by simpa using hts1, by simp [hts2]⟩
        rcases hfp : List.drop (List.takeWhile (· != '-')
            (List.takeWhile (· != ' ') (trimChars line.data))).length
            (List.takeWhile (· != ' ') (trimChars line.data)) with - | ⟨c, fl⟩
        · dsimp only
          rw [if_neg (by simp [htsc]), if_pos hbad]
        · rw [hfp] at hcon hall
          simp only [List.drop_succ_cons, List.drop_zero] at hcon hall
          dsimp only
          rw [if_neg (by rw [hcon]; decide), if_pos hall]
          dsimp only
          rw [if_neg (by simp [htsc]), if_pos hbad]

theorem importParse_all_skip : ∀ {lines : List String},
    (∀ l ∈ lines, parseImportLine l = .ok .skip) → importParse lines = .ok [] := by
  intro lines
  induction lines with
  | nil => intro _; rfl
  | cons line rest ih =>
    intro h
    unfold importParse
    rw [h line (by simp)]
    exact ih (fun l hl => h l (by simp [hl]))

/-- C7: blank lines, `#` comment lines and lines whose URL fails validation in
the legacy-known-bad ways are silently skipped: a file consisting only of such
lines imports successfully (no error message), the source file is consumed,
and no History Log entry is added. -/
theorem importTxt_skips_silently (patterns : List String) (lines : List String)
    (st : WebHistory) (hall : ∀ l ∈ lines, SkippableLine l) :
    importTxt patterns (some lines) st = ⟨st, false, none⟩ := by
  have hok : importParse lines = .ok [] :=
    importParse_all_skip (fun l hl => parseImportLine_skip_of_skippable (hall l hl))
  unfold importTxt
  dsimp only
  rw [hok]
  rfl

theorem importTxt_skips_silently_witness :
    importTxt [] ["", "#12345 http://example.com/commented", "12345 http://.com/",
      "12345 https://www..com/",
      "12345 data:text/html;charset=UTF-8,%3C%21DOCTYPE%20html%20PUBLIC%20%22-"]
      ⟨[], [], ⟨false, 0⟩⟩ = ⟨⟨[], [], ⟨false, 0⟩⟩, false, none⟩ :=
  importTxt_skips_silently [] ["", "#12345 http://example.com/commented",
    "12345 http://.com/", "12345 https://www..com/",
    "12345 data:text/html;charset=UTF-8,%3C%21DOCTYPE%20html%20PUBLIC%20%22-"]
    ⟨[], [], ⟨false, 0⟩⟩ (by
      intro l hl
      simp only [List.mem_cons, List.not_mem_nil, or_false] at hl
      rcases hl with rfl | rfl | rfl | rfl | rfl
      · exact Or.inl (by decide)
      · exact Or.inr (Or.inl (by decide))
      · exact Or.inr (Or.inr ⟨by decide, by decide, by decide, by decide, by decide, by decide⟩)
      · exact Or.inr (Or.inr ⟨by decide, by decide, by decide, by decide, by decide, by decide⟩)
      · exact Or.inr (Or.inr ⟨by decide, by decide, by decide, by decide, by decide, by decide⟩))

/-- C8: when the storage backend raises during `add_url` — at the History Log
insert or at the Completion Index insert — an environmental error is surfaced
as the user message "Failed to write history: <reason>" and the operation is
abandoned without propagating, while an internal/bug error is re-raised to
the caller unchanged. -/
theorem addUrlFault_classification (m : String) (patterns : List String) (u : Url)
    (title : String) (atime : Int) (st : WebHistory) (hne : renderUrl u ≠ "")
    (nu : String) (hnu : normalizeUrl u = some nu) (hexc : isExcluded patterns u = false) :
    addUrlFault (some (.historyInsert, .environmental m)) patterns u title atime false st =
      .ok (st, some ("Failed to write history: " ++ m)) ∧
    addUrlFault (some (.completionInsert, .environmental m)) patterns u title atime false st =
      .ok ({ st with log := logInsert ⟨fmtHistory u, title, atime, false⟩ st.log },
        some ("Failed to write history: " ++ m)) ∧
    ∀ site, addUrlFault (some (site, .bug m)) patterns u title atime false st =
      .error (.bug m) := by
  refine ⟨?_, ?_, ?_⟩
  · unfold addUrlFault
    rw [if_neg hne]
  · unfold addUrlFault
    rw [if_neg hne]
    dsimp only
    rw [hnu]
    dsimp only
    rw [if_neg (by simp [hexc])]
  · intro site
    cases site
    · unfold addUrlFault
      rw [if_neg hne]
    · unfold addUrlFault
      rw [if_neg hne]
      dsimp only
      rw [hnu]
      dsimp only
      rw [if_neg (by simp [hexc])]

theorem addUrlFault_classification_witness :
    addUrlFault (some (.historyInsert, .environmental "Error message")) []
      ⟨"https", "", none, true, "www.example.org/"⟩ "" 12345 false ⟨[], [], ⟨false, 0⟩⟩ =
      .ok (⟨[], [], ⟨false, 0⟩⟩, some "Failed to write history: Error message") ∧
    addUrlFault (some (.completionInsert, .environmental "Error message")) []
      ⟨"https", "", none, true, "www.example.org/"⟩ "" 12345 false ⟨[], [], ⟨false, 0⟩⟩ =
      .ok (⟨[⟨"https://www.example.org/", "", 12345, false⟩], [], ⟨false, 0⟩⟩,
        some "Failed to write history: Error message") ∧
    ∀ site, addUrlFault (some (site, .bug "Error message")) []
      ⟨"https", "", none, true, "www.example.org/"⟩ "" 12345 false ⟨[], [], ⟨false, 0⟩⟩ =
      .error (.bug "Error message") :=
  addUrlFault_classification "Error message" [] ⟨"https", "", none, true, "www.example.org/"⟩
    "" 12345 ⟨[], [], ⟨false, 0⟩⟩ (by decide) "https://www.example.org/" (by decide)
    (by decide)
